import Mathlib

/-!
# Verification of the rebuild-aio watcher core (`src/watch.js`)

A shallow embedding of the core of `src/watch.js` (the chokidar-based
revision): the path mapper `getOutDirPath`, the watcher ignore predicate,
the debounced `restart` entry point, the `makeChildren` fork loop, the
mirror pipeline `pass`, the production-dependency fixpoint `addProdDeps`,
and the shutdown / final-port-kill coordination.

Strings from the JavaScript are modelled as Lean `String` or `List Char`
(for character-level path manipulation); JavaScript objects used as sets
or ordered key maps are modelled as duplicate-free lists preserving
insertion order; the single-threaded event loop is modelled as explicit
traces or event-step functions.
-/

namespace Rebuild

/-! ## Path mapper (`getOutDirPath`, watch.js lines 919-922)

`getOutDirPath` splits the incoming path on `/` or `\`
(`filepath.split(/(?:\/|\\)/)`), drops the first segment, rejoins with
`/`, and resolves the remainder against the output directory
(`path.resolve(outDir, split.slice(1).join('/'))`).  We model the split
and join at the character level and keep `path.resolve` abstract as
`resolveOut`, since the claim is about the segment stripping. -/

/-- A path-separator character as matched by the regex `/(?:\/|\\)/`. -/
def isSep (c : Char) : Bool := c = '/' || c = '\\'

/-- JavaScript `String.prototype.split` on the separator class:
empty fields are kept, a trailing separator yields a trailing empty field. -/
def splitSeps : List Char → List (List Char)
  | [] => [[]]
  | c :: cs =>
    if isSep c then [] :: splitSeps cs
    else
      match splitSeps cs with
      | [] => [[c]]
      | g :: gs => (c :: g) :: gs

/-- `Array.prototype.join('/')`. -/
def joinSlash : List (List Char) → List Char
  | [] => []
  | [g] => g
  | g :: gs => g ++ '/' :: joinSlash gs

/-- The string handed to `path.resolve(outDir, ·)`: drop the first
segment of the split and rejoin with `/`.  This is the computational
content of `getOutDirPath`; the final `path.resolve(outDir, ·)` is applied
on top of it (modelled abstractly by any resolver function). -/
def getOutDirPathArg (filepath : List Char) : List Char :=
  joinSlash ((splitSeps filepath).drop 1)

/-- `getOutDirPath` itself, with `path.resolve outDir` abstracted as
`resolveOut`. -/
def getOutDirPath (resolveOut : List Char → List Char) (filepath : List Char) :
    List Char :=
  resolveOut (getOutDirPathArg filepath)

theorem splitSeps_append_sep (seg rest : List Char)
    (h : ∀ c ∈ seg, isSep c = false) :
    splitSeps (seg ++ '/' :: rest) = seg :: splitSeps rest := by
  induction seg with
  | nil => simp [splitSeps, isSep]
  | cons c cs ih =>
    have hc : isSep c = false := h c (List.mem_cons_self c cs)
    have hcs : ∀ c ∈ cs, isSep c = false := fun x hx => h x (List.mem_cons_of_mem c hx)
    have hrec := ih hcs
    simp only [List.cons_append, splitSeps, hc, Bool.false_eq_true, if_false]
    rw [show cs.append ('/' :: rest) = cs ++ '/' :: rest from rfl, hrec]

theorem splitSeps_ne_nil (l : List Char) : splitSeps l ≠ [] := by
  cases l with
  | nil => simp [splitSeps]
  | cons c cs =>
    simp only [splitSeps]
    split
    · simp
    · cases h : splitSeps cs <;> simp

theorem joinSlash_splitSeps (l : List Char) (h : ∀ c ∈ l, c ≠ '\\') :
    joinSlash (splitSeps l) = l := by
  induction l with
  | nil => simp [splitSeps, joinSlash]
  | cons c cs ih =>
    have hcs : ∀ x ∈ cs, x ≠ '\\' := fun x hx => h x (List.mem_cons_of_mem c hx)
    have hc : c ≠ '\\' := h c (List.mem_cons_self c cs)
    have hrec := ih hcs
    by_cases hsl : c = '/'
    · subst hsl
      have hs : isSep '/' = true := by decide
      simp only [splitSeps, hs, if_true]
      cases hsp : splitSeps cs with
      | nil => exact absurd hsp (splitSeps_ne_nil cs)
      | cons g gs =>
        rw [hsp] at hrec
        simpa [joinSlash] using hrec
    · have hs : isSep c = false := by
        simp only [isSep, Bool.or_eq_false_iff, decide_eq_false_iff_not]
        exact ⟨hsl, hc⟩
      simp only [splitSeps, hs, Bool.false_eq_true, if_false]
      cases hsp : splitSeps cs with
      | nil => exact absurd hsp (splitSeps_ne_nil cs)
      | cons g gs =>
        rw [hsp] at hrec
        cases gs with
        | nil => simpa [joinSlash] using hrec
        | cons g' gs' => simpa [joinSlash] using hrec

/-- C9: stripping exactly the first segment.  If the input is
`seg ++ "/" ++ rest` with `seg` free of separators and `rest` in
forward-slash normalized form (no backslashes), then `getOutDirPath`
returns the output root resolver applied to exactly `rest`. -/
theorem getOutDirPath_strips_first_segment
    (resolveOut : List Char → List Char) (seg rest : List Char)
    (hseg : ∀ c ∈ seg, isSep c = false)
    (hrest : ∀ c ∈ rest, c ≠ '\\') :
    getOutDirPath resolveOut (seg ++ '/' :: rest) = resolveOut rest := by
  unfold getOutDirPath getOutDirPathArg
  rw [splitSeps_append_sep seg rest hseg]
  simp only [List.drop_one, List.tail_cons]
  exact congrArg resolveOut (joinSlash_splitSeps rest hrest)

/-- Witness for `getOutDirPath_strips_first_segment` at the concrete input
`src/a.txt`. -/
theorem getOutDirPath_strips_first_segment_witness :
    getOutDirPath id ("src".toList ++ '/' :: "a.txt".toList) = "a.txt".toList :=
  getOutDirPath_strips_first_segment id "src".toList "a.txt".toList
    (by decide) (by decide)

/-! ## The debounced `restart` entry point (watch.js lines 863-917)

The body of the debounced `restart` closure reads, in order:
`watchersSetup` (no-op while the initial scan is running), the configured
command lists (no-op when both are empty), and the registry `children`.
With a non-empty registry it arms per-execution exit listeners whose last
firing invokes `makeChildren`; with an empty registry it invokes
`makeChildren` directly (logging `restarting from crash...` when
`crashDetected` is set).  It never reads `sigintHandled`. -/

/-- The supervisor-visible state read by the `restart` closure. -/
structure SupState where
  watchersSetup : Bool
  sigintHandled : Bool
  forkCommands : List String
  spawnCommands : List String
  /-- keys of the `children` registry object -/
  children : List String
  crashDetected : Bool
deriving DecidableEq, Repr

/-- What one invocation of the debounced `restart` body does. -/
inductive RestartAction where
  /-- returns before touching any child -/
  | noop
  /-- non-empty registry: sends SIGRES to every execution, arms kill
  timers, and attaches exit listeners that call `makeChildren` when the
  registry drains to empty -/
  | drainThenRemake
  /-- empty registry: calls `makeChildren` immediately; the flag records
  whether the `restarting from crash...` notice is logged -/
  | callMakeChildren (fromCrash : Bool)
deriving DecidableEq, Repr

/-- The branch taken by the `restart` closure body (watch.js 863-917),
transcribed guard for guard. -/
def restartAction (s : SupState) : RestartAction :=
  if s.watchersSetup = false then .noop
  else if s.forkCommands.isEmpty && s.spawnCommands.isEmpty then .noop
  else if s.children.isEmpty = false then .drainThenRemake
  else .callMakeChildren s.crashDetected

/-- Whether the action leads to `makeChildren` being invoked (directly,
or by the drain listeners once the last child exits). -/
def reachesMakeChildren : RestartAction → Bool
  | .noop => false
  | .drainThenRemake => true
  | .callMakeChildren _ => true

/-- A state with the Shutdown Flag set in which `restart` still reaches
`makeChildren`: watchers set up, one fork command configured, registry
empty. -/
def shutdownRestartState : SupState :=
  { watchersSetup := true
    sigintHandled := true
    forkCommands := ["node server.js"]
    spawnCommands := []
    children := []
    crashDetected := false }

/-- C1 counterexample: after the Shutdown Flag (`sigintHandled`) is set,
an invocation of the debounced `restart` entry point is not a no-op: in
`shutdownRestartState` it reaches `makeChildren` directly, so a new child
is registered. -/
theorem restart_after_shutdown_reaches_makeChildren :
    shutdownRestartState.sigintHandled = true ∧
      restartAction shutdownRestartState = .callMakeChildren false ∧
      reachesMakeChildren (restartAction shutdownRestartState) = true := by
  decide

/-- C1 amended: the debounced `restart` body never reads the Shutdown
Flag — its action is identical whether or not the flag is set — and it is
a no-op exactly when the watchers are not yet set up or no fork/spawn
command is configured. -/
theorem restart_ignores_shutdown_flag (s : SupState) :
    restartAction { s with sigintHandled := true } =
      restartAction { s with sigintHandled := false } ∧
    (restartAction s = .noop ↔
      (s.watchersSetup = false ∨
        (s.forkCommands = [] ∧ s.spawnCommands = []))) := by
  constructor
  · rfl
  · unfold restartAction
    rcases s with ⟨ws, si, fc, sc, ch, cd⟩
    cases ws <;> cases fc <;> cases sc <;> cases ch <;>
      simp [List.isEmpty]

/-! ## Mirror pipeline `pass` (watch.js lines 924-981)

`pass` classifies the source path, then either ensures the output
directory (directory/symlink case), or reads + transforms + writes
(transform-gated regular file), or byte-copies (other regular files).
In both regular-file branches the write is asynchronous
(`fs.writeFile` / `fs.copyFile` with a completion callback) and
`restart()` is invoked inside the completion callback, i.e. strictly
after the write has completed (Node runs the callback only once the
operation finished, possibly with an error).  A non-string transformer
return throws before any write is started.

We model one `pass` invocation as the sequence of observable events it
produces, in program order. -/

inductive PassEv where
  | ensureDir
  | readSrc
  | transformCall
  | throwNonString
  | writeComplete (failed : Bool)
  | copyComplete (failed : Bool)
  | notifyRestart
deriving DecidableEq, Repr

/-- Event trace of one `pass(f)` call.
`isDir`/`isSymlink`: the lstat classification; `outExists`: whether the
output path already exists; `shouldTransform`: whether a transform glob
matched; `transformReturnsString`: whether the transformer returned a
string; `writeErr` / `copyErr`: whether the asynchronous write/copy
completed with an error. -/
def passTrace (isDir isSymlink outExists shouldTransform
    transformReturnsString writeErr copyErr : Bool) : List PassEv :=
  if isDir || isSymlink then
    if outExists then [] else [.ensureDir]
  else if shouldTransform then
    [.readSrc, .transformCall] ++
      (if transformReturnsString then
        [.writeComplete writeErr, .notifyRestart]
      else
        [.throwNonString])
  else
    [.copyComplete copyErr, .notifyRestart]

/-- Is the event a completed write of the output file? -/
def isWriteDone : PassEv → Bool
  | .writeComplete _ => true
  | .copyComplete _ => true
  | _ => false

/-- Every `notifyRestart` in the trace is preceded by a completed write:
scanning left to right, a restart notification only appears once a
write/copy completion has been seen. -/
def notifyAfterWrite : List PassEv → Bool → Bool
  | [], _ => true
  | e :: es, seenWrite =>
    match e with
    | .notifyRestart => seenWrite && notifyAfterWrite es seenWrite
    | _ => notifyAfterWrite es (seenWrite || isWriteDone e)

/-- C4: in every branch of the mirror pipeline, the restart notification
is issued only after the write of the output file has completed, never
before (this includes writes that complete with an error: the
notification fires in the completion callback either way). -/
theorem pass_notifies_only_after_write (isDir isSymlink outExists
    shouldTransform transformReturnsString writeErr copyErr : Bool) :
    notifyAfterWrite
      (passTrace isDir isSymlink outExists shouldTransform
        transformReturnsString writeErr copyErr) false = true := by
  cases isDir <;> cases isSymlink <;> cases outExists <;>
    cases shouldTransform <;> cases transformReturnsString <;>
    cases writeErr <;> cases copyErr <;> decide

/-! ## Non-string transformer return (watch.js 955-961, 692-694)

When the transformer returns a non-string, `pass` throws
`Error('Returned value from custom transformer is not a string.')`
before any write is started.  The rejection propagates out of the
`async` call chain and — with Node's default unhandled-rejection mode —
is raised as an uncaught exception.  The registered handler
`process.on('uncaughtException', ...)` awaits `finalPortKilling()`,
which kills each configured port in order, logs `stopped`, and calls
`process.exit()` with no argument, i.e. exits with code `0`. -/

/-- The message of the error thrown by `pass` (watch.js 957-960). -/
def nonStringErrorMessage : String :=
  "Returned value from custom transformer is not a string."

/-- The transform-gated branch of `pass` up to the write decision:
either the write proceeds, or the error is thrown. -/
def passTransformResult (transformReturnsString : Bool) :
    Except String Unit :=
  if transformReturnsString then .ok () else .error nonStringErrorMessage

/-- How the process ends (or continues) after one transform-gated
`pass` call, given the registered `uncaughtException` handler. -/
inductive ProcOutcome where
  /-- no uncaught error: the process keeps watching -/
  | continues
  /-- an uncaught error: `finalPortKilling` kills the listed ports in
  order and the process exits with the given code -/
  | exits (errorRaised : Bool) (outputWritten : Bool)
      (portsKilled : List Nat) (code : Nat)
deriving DecidableEq, Repr

/-- Outcome of a transform-gated `pass` call at process level:
on a thrown error the `uncaughtException` handler runs
`finalPortKilling`, which ends in an argument-less `process.exit()`
(exit code 0). -/
def runTransformScenario (transformReturnsString : Bool)
    (killPorts : List Nat) : ProcOutcome :=
  match passTransformResult transformReturnsString with
  | .ok _ => .continues
  | .error _ => .exits true false killPorts 0

/-- C7 counterexample: with a transformer returning a non-string and
port 3000 configured, an error is raised and the output file is not
written — but the process exits with code `0` (via
`uncaughtException → finalPortKilling → process.exit()`), not with a
nonzero code as claimed. -/
theorem transform_nonString_exit_code_zero :
    runTransformScenario false [3000] = .exits true false [3000] 0 := by
  decide

/-- C7 amended: a non-string transformer return raises
`nonStringErrorMessage` before any write (the `pass` trace ends at the
throw, with no write-completion and no restart notification), the
uncaught-error path kills the configured ports, and the process exits —
with code `0`, not nonzero. -/
theorem transform_nonString_fatal (killPorts : List Nat)
    (writeErr copyErr : Bool) :
    passTransformResult false = .error nonStringErrorMessage ∧
    passTrace false false false true false writeErr copyErr =
      [.readSrc, .transformCall, .throwNonString] ∧
    runTransformScenario false killPorts = .exits true false killPorts 0 := by
  refine ⟨rfl, rfl, rfl⟩

/-! ## Final port kill, once per lifetime? (watch.js 682-694, 696-741)

`finalPortKilling` has no run-once guard.  It is triggered (a) by the
first SIGINT when the registry is already empty, (b) by the exit
listener — attached to every execution by the SIGINT handler — of the
child whose exit empties the registry, and (c) by the
`uncaughtException` handler, unconditionally.  Because
`finalPortKilling` suspends at each `await kill(port)` before reaching
`process.exit()`, a second trigger can start the sequence again while
the first is still running.

We model the interleavings as a list of events processed by the
single-threaded event loop.  `pkFinish` is the resumption at which a
running `finalPortKilling` reaches `process.exit()`; after it the
process is gone and no further events are delivered. -/

inductive ShutEv where
  | sigint
  | childExit (c : String)
  | uncaughtError
  /-- a running `finalPortKilling` reaches `process.exit()` -/
  | pkFinish
deriving DecidableEq, Repr

structure ShutState where
  sigintHandled : Bool
  /-- keys of the `children` registry -/
  children : List String
  /-- how many times the `finalPortKilling` sequence has been started -/
  pkInvocations : Nat
  /-- a `finalPortKilling` is in flight (past its first `await`) -/
  pkRunning : Bool
  /-- `process.exit()` has run -/
  exited : Bool
deriving DecidableEq, Repr

/-- Begin the final port-kill sequence (kills ports, logs `stopped`,
will reach `process.exit()` at a later `pkFinish`). -/
def startPortKill (s : ShutState) : ShutState :=
  { s with pkInvocations := s.pkInvocations + 1, pkRunning := true }

/-- One event delivered to the shutdown coordinator. -/
def shutStep (s : ShutState) (e : ShutEv) : ShutState :=
  if s.exited then s
  else
    match e with
    | .sigint =>
      if s.sigintHandled then s
      else
        let s' := { s with sigintHandled := true }
        if s'.children = [] then startPortKill s' else s'
    | .childExit c =>
      if c ∈ s.children then
        let s' := { s with children := s.children.erase c }
        if s'.sigintHandled && decide (s'.children = []) then startPortKill s'
        else s'
      else s
    | .uncaughtError => startPortKill s
    | .pkFinish => if s.pkRunning then { s with exited := true } else s

/-- Run the coordinator from boot (registry `cs`) over an event list. -/
def shutRun (cs : List String) (evs : List ShutEv) : ShutState :=
  evs.foldl shutStep
    { sigintHandled := false, children := cs, pkInvocations := 0
      pkRunning := false, exited := false }

/-- C8 counterexample: an interrupt with an empty registry starts
`finalPortKilling`; an uncaught error arriving while it is suspended at
`await kill(port)` starts it a second time.  The sequence runs twice in
one process lifetime. -/
theorem portKill_runs_twice :
    (shutRun [] [.sigint, .uncaughtError]).pkInvocations = 2 := by
  decide

/-- Invariant for the error-free at-most-once argument: before the
interrupt no sequence has started; after it, exactly one iff the
registry has drained. -/
def atMostOnceInv (s : ShutState) : Prop :=
  if s.sigintHandled then
    s.pkInvocations = (if s.children = [] then 1 else 0)
  else s.pkInvocations = 0

/-- Invariant for the at-least-once argument. -/
def atLeastOnceInv (s : ShutState) : Prop :=
  (s.sigintHandled = true → s.children = [] → 1 ≤ s.pkInvocations) ∧
  (s.pkRunning = true → 1 ≤ s.pkInvocations) ∧
  (s.exited = true → 1 ≤ s.pkInvocations)

theorem shutStep_atMostOnce {s : ShutState} {e : ShutEv}
    (hs : atMostOnceInv s) (he : e ≠ .uncaughtError) :
    atMostOnceInv (shutStep s e) := by
  obtain ⟨si, ch, pk, pr, ex⟩ := s
  simp only [atMostOnceInv] at hs ⊢
  cases ex
  · cases e with
    | sigint =>
      cases si
      · by_cases hch : ch = [] <;> simp_all [shutStep, startPortKill]
      · simp_all [shutStep]
    | childExit c =>
      by_cases hc : c ∈ ch
      · have hne : ¬ch = [] := by rintro rfl; exact List.not_mem_nil c hc
        by_cases hch : ch.erase c = [] <;> cases si <;>
          simp_all [shutStep, startPortKill]
      · simp_all [shutStep]
    | uncaughtError => exact absurd rfl he
    | pkFinish => cases pr <;> simp_all [shutStep]
  · simp_all [shutStep]

theorem shutStep_atLeastOnce {s : ShutState} {e : ShutEv}
    (hs : atLeastOnceInv s) : atLeastOnceInv (shutStep s e) := by
  obtain ⟨si, ch, pk, pr, ex⟩ := s
  obtain ⟨h1, h2, h3⟩ := hs
  simp only [atLeastOnceInv] at *
  cases ex
  · cases e with
    | sigint =>
      cases si
      · by_cases hch : ch = [] <;> simp_all [shutStep, startPortKill]
      · simp_all [shutStep]
    | childExit c =>
      by_cases hc : c ∈ ch
      · by_cases hch : ch.erase c = [] <;> cases si <;>
          simp_all [shutStep, startPortKill]
      · simp_all [shutStep]
    | uncaughtError => simp_all [shutStep, startPortKill]
    | pkFinish => cases pr <;> simp_all [shutStep]
  · simp_all [shutStep]

theorem shutRun_foldl_atMostOnce (evs : List ShutEv) (s : ShutState)
    (hs : atMostOnceInv s) (hevs : ShutEv.uncaughtError ∉ evs) :
    atMostOnceInv (evs.foldl shutStep s) := by
  induction evs generalizing s with
  | nil => exact hs
  | cons e es ih =>
    have hne : e ≠ .uncaughtError := fun h => hevs (h ▸ List.mem_cons_self e es)
    have hes : ShutEv.uncaughtError ∉ es := fun h => hevs (List.mem_cons_of_mem e h)
    exact ih (shutStep s e) (shutStep_atMostOnce hs hne) hes

theorem shutRun_foldl_atLeastOnce (evs : List ShutEv) (s : ShutState)
    (hs : atLeastOnceInv s) : atLeastOnceInv (evs.foldl shutStep s) := by
  induction evs generalizing s with
  | nil => exact hs
  | cons e es ih => exact ih (shutStep s e) (shutStep_atLeastOnce hs)

/-- C8 amended: over interleavings of the first interrupt, child exits
and the port-kill resumption, the final port-kill sequence runs at most
once — provided the uncaught-error path never fires.  And whenever the
interrupt has been handled and the registry has drained, it has run at
least once (with uncaught errors it is unguarded, and
`portKill_runs_twice` shows a second run).  -/
theorem portKill_once_without_uncaught_errors (cs : List String)
    (evs : List ShutEv) :
    (ShutEv.uncaughtError ∉ evs → (shutRun cs evs).pkInvocations ≤ 1) ∧
    ((shutRun cs evs).sigintHandled = true → (shutRun cs evs).children = [] →
      1 ≤ (shutRun cs evs).pkInvocations) := by
  constructor
  · intro hevs
    have h0 : atMostOnceInv
        { sigintHandled := false, children := cs, pkInvocations := 0
          pkRunning := false, exited := false } := by
      simp [atMostOnceInv]
    have := shutRun_foldl_atMostOnce evs _ h0 hevs
    unfold atMostOnceInv at this
    unfold shutRun
    split at this <;> [skip; omega]
    split at this <;> omega
  · intro hsi hch
    have h0 : atLeastOnceInv
        { sigintHandled := false, children := cs, pkInvocations := 0
          pkRunning := false, exited := false } := by
      simp [atLeastOnceInv]
    have := (shutRun_foldl_atLeastOnce evs _ h0).1
    exact this hsi hch

/-- Witness for `portKill_once_without_uncaught_errors`: one child,
interrupt then its exit; the sequence runs exactly once. -/
theorem portKill_once_witness :
    (shutRun ["node server.js"]
        [.sigint, .childExit "node server.js"]).pkInvocations ≤ 1 ∧
      1 ≤ (shutRun ["node server.js"]
        [.sigint, .childExit "node server.js"]).pkInvocations := by
  have h := portKill_once_without_uncaught_errors ["node server.js"]
    [.sigint, .childExit "node server.js"]
  exact ⟨h.1 (by decide), h.2 (by decide) (by decide)⟩

/-! ## The watcher ignore predicate (watch.js 1175-1203)

```
ignored: (file) => {
  if (file.endsWith('~')) { return }            -- undefined (falsy!)
  const isNodeModule = file.includes('node_modules')
  if (isNodeModule) {
    if (file.endsWith('node_modules')) return false
    if (file.endsWith('.bin')) return true
    const match = (file + '/')
      .match(/^(.+?\/(?:node_modules\/(?:@.+?\/)?.+?\/)+)/) || []
    const packagePath = match[1].slice(0, -1)   -- throws if no match
    const include = prodDeps[packagePath]
    return !include
  }
  return false
}
```

chokidar treats the returned value as a JavaScript truthiness test: the
path is ignored (excluded from mirroring) iff the value is truthy, so
`undefined` and `false` both mean "keep watching the path".

The regular expression is modelled by a direct transcription of the
JavaScript backtracking search, specialised to this pattern:

* `.` matches any character except a line terminator (`dotOk`);
* `.+?\/` (lazy) consumes the shortest run of one or more `dotOk`
  characters followed by a literal `/`, extending the run only when the
  continuation fails (`tryLazy`);
* `(?:@.+?\/)?` is a greedy option: the `@`-branch is tried first;
* `(?:...)+` is greedy with nothing following it in the pattern, so it
  simply consumes units while another unit matches (`unitsStar`): a
  failing extra unit can never force re-exploration of earlier units
  because exiting the quantifier immediately succeeds;
* group 1 spans the whole match, so it is the consumed prefix. -/

/-- `.` of a JavaScript regex (without the `s` flag): any char except a
line terminator. -/
def dotOk (c : Char) : Bool :=
  !(c = '\n' || c = '\r' || c = Char.ofNat 0x2028 || c = Char.ofNat 0x2029)

/-- Strip an expected literal from the front, returning the remainder. -/
def stripLit : List Char → List Char → Option (List Char)
  | [], r => some r
  | _ :: _, [] => none
  | c :: cs, x :: xs => if x = c then stripLit cs xs else none

/-- Backtracking search for `.+?\/` followed by continuation `k`: at
least one `dotOk` character has already been consumed when `tryLazyGo`
runs; it first tries to read the literal `/` here and run `k`, and only
extends the lazy run (also across `/`, which `.` matches) when that
fails. -/
def tryLazyGo (k : List Char → Option (List Char)) : List Char → Option (List Char)
  | [] => none
  | c :: rest =>
    match (if c = '/' then k rest else none) with
    | some v => some v
    | none => if dotOk c then tryLazyGo k rest else none

/-- `.+?\/` then `k`: the first character must be consumed by `.+?`. -/
def tryLazy (k : List Char → Option (List Char)) (r : List Char) :
    Option (List Char) :=
  match r with
  | [] => none
  | c :: rest => if dotOk c then tryLazyGo k rest else none

/-- The literal `node_modules/`. -/
def nmSlash : List Char := "node_modules/".toList

/-- One unit `node_modules\/(?:@.+?\/)?.+?\/`, with continuation `some`
(inside the greedy `+` the continuation always succeeds, so each unit
resolves its lazy choices by itself).  Returns the remainder after the
unit. -/
def unitOnce (r : List Char) : Option (List Char) :=
  match stripLit nmSlash r with
  | none => none
  | some r1 =>
    match (if r1.head? = some '@' then
        tryLazy (fun r3 => tryLazy some r3) (r1.drop 1)
      else none) with
    | some v => some v
    | none => tryLazy some r1

theorem stripLit_length {cs r r' : List Char} (h : stripLit cs r = some r') :
    r'.length + cs.length = r.length := by
  induction cs generalizing r with
  | nil => simp [stripLit] at h; simp [h]
  | cons c cs ih =>
    cases r with
    | nil => simp [stripLit] at h
    | cons x xs =>
      simp only [stripLit] at h
      split at h
      · have := ih h
        simp only [List.length_cons]
        omega
      · exact absurd h (by simp)

theorem tryLazyGo_length {k : List Char → Option (List Char)}
    {r v : List Char} (h : tryLazyGo k r = some v) :
    ∃ t, t.length < r.length ∧ k t = some v := by
  induction r with
  | nil => simp [tryLazyGo] at h
  | cons c rest ih =>
    simp only [tryLazyGo] at h
    split at h
    · rename_i v' heq
      split at heq
      · exact ⟨rest, by simp, heq.trans h⟩
      · exact absurd heq (by simp)
    · split at h
      · obtain ⟨t, ht, hk⟩ := ih h
        exact ⟨t, by simp only [List.length_cons]; omega, hk⟩
      · exact absurd h (by simp)

theorem tryLazy_length {k : List Char → Option (List Char)}
    {r v : List Char} (h : tryLazy k r = some v) :
    ∃ t, t.length + 2 ≤ r.length ∧ k t = some v := by
  cases r with
  | nil => simp [tryLazy] at h
  | cons c rest =>
    simp only [tryLazy] at h
    split at h
    · obtain ⟨t, ht, hk⟩ := tryLazyGo_length h
      exact ⟨t, by simp only [List.length_cons]; omega, hk⟩
    · exact absurd h (by simp)

theorem unitOnce_length {r r' : List Char} (h : unitOnce r = some r') :
    r'.length < r.length := by
  unfold unitOnce at h
  cases hs : stripLit nmSlash r with
  | none => rw [hs] at h; exact absurd h (by simp)
  | some r1 =>
    rw [hs] at h
    have h13 := stripLit_length hs
    have h' : (match (if r1.head? = some '@' then
          tryLazy (fun r3 => tryLazy some r3) (r1.drop 1)
        else none) with
      | some v => some v
      | none => tryLazy some r1) = some r' := h
    clear h
    by_cases hh : r1.head? = some '@'
    · rw [if_pos hh] at h'
      cases hw : tryLazy (fun r3 => tryLazy some r3) (r1.drop 1) with
      | some v =>
        rw [hw] at h'
        cases h'
        obtain ⟨t, ht, hk⟩ := tryLazy_length hw
        obtain ⟨t2, ht2, hk2⟩ := tryLazy_length hk
        cases hk2
        have hd : (r1.drop 1).length ≤ r1.length := by
          simp only [List.length_drop]; omega
        omega
      | none =>
        rw [hw] at h'
        obtain ⟨t, ht, hk⟩ := tryLazy_length h'
        cases hk
        omega
    · rw [if_neg hh] at h'
      simp only at h'
      obtain ⟨t, ht, hk⟩ := tryLazy_length h'
      cases hk
      omega

/-- Greedy `(?:unit)+` tail: keep consuming units while one matches. -/
def unitsStar (r : List Char) : List Char :=
  match h : unitOnce r with
  | none => r
  | some r' => unitsStar r'
termination_by r.length
decreasing_by exact unitOnce_length h

/-- `(?:unit)+`: at least one unit, then as many as match. -/
def unitsPlus (r : List Char) : Option (List Char) :=
  (unitOnce r).map unitsStar

/-- The remainder of `s` after the anchored match of
`^(.+?\/(?:node_modules\/(?:@.+?\/)?.+?\/)+)`, or `none` if the regex
does not match. -/
def matchTopRem (s : List Char) : Option (List Char) :=
  tryLazy unitsPlus s

/-- Group 1 of the match: the consumed prefix of `s`. -/
def pkgPrefixMatch (s : List Char) : Option (List Char) :=
  (matchTopRem s).map (fun rem => s.take (s.length - rem.length))

/-- A JavaScript value returned by the `ignored` callback. -/
inductive JSVal where
  | undefined
  | bool (b : Bool)
deriving DecidableEq, Repr

/-- JavaScript truthiness: chokidar excludes the path iff this is
`true`. -/
def truthy : JSVal → Bool
  | .undefined => false
  | .bool b => b

/-- `pat.isPrefixOf l` done by hand on character lists. -/
def hasPrefixLit (pat l : List Char) : Bool := (stripLit pat l).isSome

/-- JavaScript `String.prototype.includes`. -/
def containsLit (pat : List Char) : List Char → Bool
  | [] => pat.isEmpty
  | c :: cs => hasPrefixLit pat (c :: cs) || containsLit pat cs

/-- JavaScript `String.prototype.endsWith`. -/
def endsWithLit (pat l : List Char) : Bool := hasPrefixLit pat.reverse l.reverse

/-- The `ignored` callback (watch.js 1176-1202).  `prodDeps` is the
production-dependency lookup `prodDeps[packagePath]`.  `.error ()`
models the `TypeError` thrown by `match[1].slice(0, -1)` when the regex
failed to match (`match[1]` is `undefined`). -/
def ignoredFn (prodDeps : List Char → Bool) (file : List Char) :
    Except Unit JSVal :=
  if endsWithLit "~".toList file then .ok .undefined
  else if containsLit "node_modules".toList file then
    if endsWithLit "node_modules".toList file then .ok (.bool false)
    else if endsWithLit ".bin".toList file then .ok (.bool true)
    else
      match pkgPrefixMatch (file ++ ['/']) with
      | none => .error ()
      | some m1 => .ok (.bool (!(prodDeps m1.dropLast)))
  else .ok (.bool false)

/-- C2 (at the failing input): for the temporary file `src/a.txt~` the
`ignored` callback returns `undefined` — a falsy value — so chokidar
does *not* exclude the path: the temporary file is watched and mirrored,
contrary to both the spec and the intent of the `file is temp file`
comment (in the pre-chokidar revision the same bare `return` sat in the
event handler, where returning did skip the file). -/
theorem ignored_tempfile_not_excluded :
    ignoredFn (fun _ => false) "src/a.txt~".toList = .ok .undefined ∧
      truthy .undefined = false := by
  constructor
  · rfl
  · rfl

/-- C10: the vendor branch of the `ignored` callback is partial.  The
path `node_modules/pkg` contains (indeed starts with) `node_modules`,
does not end with `node_modules` or `.bin` or `~`, yet the
package-prefix regex fails to match, `match[1]` is `undefined`, and
`match[1].slice(0, -1)` throws a `TypeError` — for every
production-dependency table. -/
theorem ignored_throws_on_bare_node_modules :
    hasPrefixLit "node_modules".toList "node_modules/pkg".toList = true ∧
    containsLit "node_modules".toList "node_modules/pkg".toList = true ∧
    endsWithLit "node_modules".toList "node_modules/pkg".toList = false ∧
    endsWithLit ".bin".toList "node_modules/pkg".toList = false ∧
    endsWithLit "~".toList "node_modules/pkg".toList = false ∧
    ∀ prodDeps : List Char → Bool,
      ignoredFn prodDeps "node_modules/pkg".toList = .error () := by
  refine ⟨by decide, by decide, by decide, by decide, by decide, fun prodDeps => ?_⟩
  rfl

/-! ## Serialized fork startup (`makeChildren`, watch.js 743-828)

`makeChildren` iterates the fork-command list with `for ... of` and ends
the body of each iteration with `await continuePromise`, so the next
fork is not started until the current fork's pause protocol has
completed: the child's `spawn` event fired, the 500 ms grace period for
a `{pauseForking:true}` message elapsed, and — if the child did pause —
either `{resumeForking:true}` arrived or the 30 s safety timeout fired
(`continuePromise` resolves).  If the child emits `error`,
`continuePromise` rejects and the whole `makeChildren` call aborts; if
the protocol never completes, `makeChildren` stalls and no further
command is started.

We model one `makeChildren` run as the trace of fork-start /
protocol-completion events, parameterised by each child's behaviour.
Children are assumed not to exit mid-run (an exit only removes the
child's own registry entry and cannot start another command). -/

/-- How a forked child behaves during its startup protocol. -/
inductive PauseOutcome where
  /-- paused and then sent `{resumeForking:true}` -/
  | resumed
  /-- paused and never resumed: the 30 s safety timeout cleared the wait -/
  | pauseTimeout
  /-- sent no pause message during the 500 ms grace period -/
  | noPause
  /-- emitted `error`: `continuePromise` rejects and `makeChildren` aborts -/
  | spawnError
  /-- protocol never completes: `makeChildren` stalls forever -/
  | neverCompletes
deriving DecidableEq, Repr

/-- Did `await continuePromise` complete normally for this outcome? -/
def completesProtocol : PauseOutcome → Bool
  | .resumed => true
  | .pauseTimeout => true
  | .noPause => true
  | .spawnError => false
  | .neverCompletes => false

inductive ForkEv where
  /-- `fork(...)` called and the execution registered in `children` -/
  | forkStart (c : String)
  /-- the child's `spawn` event fired -/
  | forkSpawned (c : String)
  /-- the pause protocol completed: `await continuePromise` returned -/
  | protocolDone (c : String) (o : PauseOutcome)
  /-- `continuePromise` rejected: `makeChildren` aborts -/
  | aborted (c : String)
deriving DecidableEq, Repr

/-- The fork loop of `makeChildren`: commands already present in the
registry are skipped; otherwise the child is started, registered, and
the loop blocks on its pause protocol before the next command.  A
rejected `continuePromise` (spawn error) or a never-completing protocol
truncates the run: no later command is started. -/
def makeForkChildren (registry : List String) (beh : String → PauseOutcome) :
    List String → List ForkEv
  | [] => []
  | c :: rest =>
    if c ∈ registry then makeForkChildren registry beh rest
    else if completesProtocol (beh c) then
      .forkStart c :: .forkSpawned c :: .protocolDone c (beh c) ::
        makeForkChildren (c :: registry) beh rest
    else if beh c = .spawnError then [.forkStart c, .aborted c]
    else [.forkStart c]

/-- C3: forks start serially and in configuration order.  For fork
commands `A` before `B` in the configured list (with the registry empty
at the start of the run, as it is whenever `restart` invokes
`makeChildren`), if `B`'s child is started at all then `A`'s pause
protocol has completed strictly before `B`'s start: the trace contains
`protocolDone A` followed later by `forkStart B`. -/
theorem forks_start_serially (beh : String → PauseOutcome)
    (l1 l2 l3 : List String) (A B : String)
    (hA1 : A ∉ l1) (hBA : B ≠ A) (hB1 : B ∉ l1)
    (hB : ForkEv.forkStart B ∈
      makeForkChildren [] beh (l1 ++ A :: l2 ++ B :: l3)) :
    List.Sublist [ForkEv.protocolDone A (beh A), ForkEv.forkStart B]
      (makeForkChildren [] beh (l1 ++ A :: l2 ++ B :: l3)) := by
  suffices hgen : ∀ reg, A ∉ reg → B ∉ reg →
      ForkEv.forkStart B ∈ makeForkChildren reg beh (l1 ++ A :: l2 ++ B :: l3) →
      List.Sublist [ForkEv.protocolDone A (beh A), ForkEv.forkStart B]
        (makeForkChildren reg beh (l1 ++ A :: l2 ++ B :: l3)) by
    exact hgen [] (List.not_mem_nil A) (List.not_mem_nil B) hB
  clear hB
  induction l1 with
  | nil =>
    intro reg hAreg hBreg hB
    simp only [List.nil_append] at hB ⊢
    simp only [makeForkChildren, if_neg hAreg] at hB ⊢
    by_cases hc : completesProtocol (beh A) = true
    · simp only [hc, if_true, List.mem_cons] at hB ⊢
      rcases hB with h | h | h | h
      · simp only [ForkEv.forkStart.injEq] at h
        exact absurd h hBA
      · exact absurd h (by simp)
      · exact absurd h (by simp)
      · exact (((List.singleton_sublist.mpr h).cons₂ _).cons _).cons _
    · simp only [hc, Bool.false_eq_true, if_false] at hB
      split at hB <;>
        simp only [List.mem_cons, List.not_mem_nil, or_false,
          ForkEv.forkStart.injEq] at hB
      · rcases hB with h | h
        · exact absurd h hBA
        · exact absurd h (by simp)
      · exact absurd hB hBA
  | cons x xs ih =>
    intro reg hAreg hBreg hB
    have hAxs : A ∉ xs := fun h => hA1 (List.mem_cons_of_mem x h)
    have hBxs : B ∉ xs := fun h => hB1 (List.mem_cons_of_mem x h)
    have hAx : A ≠ x := fun h => hA1 (h ▸ List.mem_cons_self x xs)
    have hBx : B ≠ x := fun h => hB1 (h ▸ List.mem_cons_self x xs)
    simp only [List.cons_append] at hB ⊢
    simp only [makeForkChildren] at hB ⊢
    by_cases hxreg : x ∈ reg
    · rw [if_pos hxreg] at hB ⊢
      exact ih hAxs hBxs reg hAreg hBreg hB
    · rw [if_neg hxreg] at hB ⊢
      have hAreg' : A ∉ x :: reg := by
        intro h; rcases List.mem_cons.mp h with h | h
        · exact hAx h
        · exact hAreg h
      have hBreg' : B ∉ x :: reg := by
        intro h; rcases List.mem_cons.mp h with h | h
        · exact hBx h
        · exact hBreg h
      by_cases hc : completesProtocol (beh x) = true
      · simp only [hc, if_true, List.mem_cons] at hB ⊢
        rcases hB with h | h | h | h
        · simp only [ForkEv.forkStart.injEq] at h
          exact absurd h hBx
        · exact absurd h (by simp)
        · exact absurd h (by simp)
        · exact ((ih hAxs hBxs (x :: reg) hAreg' hBreg' h).cons _).cons _ |>.cons _
      · simp only [hc, Bool.false_eq_true, if_false] at hB
        split at hB <;>
          simp only [List.mem_cons, List.not_mem_nil, or_false,
            ForkEv.forkStart.injEq] at hB
        · rcases hB with h | h
          · exact absurd h hBx
          · exact absurd h (by simp)
        · exact absurd hB hBx

/-- Witness for `forks_start_serially`: two forks `a` before `b`, both
resuming promptly; `a`'s protocol completion precedes `b`'s start. -/
theorem forks_start_serially_witness :
    List.Sublist [ForkEv.protocolDone "a" .resumed, ForkEv.forkStart "b"]
      (makeForkChildren [] (fun _ => .resumed) ["a", "b"]) :=
  forks_start_serially (fun _ => .resumed) [] [] [] "a" "b"
    (List.not_mem_nil "a") (by decide) (List.not_mem_nil "b") (by decide)

/-- Witness for `restart_ignores_shutdown_flag` at a concrete state. -/
theorem restart_ignores_shutdown_flag_witness :
    restartAction { shutdownRestartState with sigintHandled := true } =
        restartAction { shutdownRestartState with sigintHandled := false } ∧
      (restartAction shutdownRestartState = .noop ↔
        (shutdownRestartState.watchersSetup = false ∨
          (shutdownRestartState.forkCommands = [] ∧
            shutdownRestartState.spawnCommands = []))) :=
  restart_ignores_shutdown_flag shutdownRestartState

/-- Witness for `pass_notifies_only_after_write` at the plain-copy
branch. -/
theorem pass_notifies_only_after_write_witness :
    notifyAfterWrite (passTrace false false false false true false false)
      false = true :=
  pass_notifies_only_after_write false false false false true false false

/-- Witness for `transform_nonString_fatal` with port 3000. -/
theorem transform_nonString_fatal_witness :
    passTransformResult false = .error nonStringErrorMessage ∧
    passTrace false false false true false false false =
      [.readSrc, .transformCall, .throwNonString] ∧
    runTransformScenario false [3000] = .exits true false [3000] 0 :=
  transform_nonString_fatal [3000] false false

/-- Witness for `ignored_throws_on_bare_node_modules`: the trivial
production-dependency table. -/
theorem ignored_throws_witness :
    ignoredFn (fun _ => false) "node_modules/pkg".toList = .error () :=
  ignored_throws_on_bare_node_modules.2.2.2.2.2 (fun _ => false)

/-! ## Production-dependency fixpoint (`addProdDeps`, watch.js 986-1070)

The worklist loop (lines 1018-1069): while `newlyAdded` is non-empty,
for each dep folder `D` in it, read `D/package.json`; for every listed
dependency `x`, resolve it by ascending from `D` and probing
`<ancestor>/node_modules/<x>` (`escalade` + `fs.pathExistsSync`); a
missing install throws; a found install is made relative to the process
working directory and — only if not already in `prodDeps` — carried
into `nextNewlyAdded`.  Then `D/node_modules` is re-scanned for
non-dotfile symlink children, which are put into `nextNewlyAdded`
*unconditionally*.

Paths are segment lists; the filesystem root is `[]`; relative paths
are resolved against `cwd` with `..`-collapsing as `path.resolve` does.
The filesystem is a pure oracle (`VendorFS`).  The seeding phase (lines
988-1016) supplies the initial `prodDeps` set and worklist, which the
theorems quantify over. -/

/-- A filesystem path as a list of segments; `[]` is the root (for
absolute paths) or an empty relative path. -/
abbrev Path := List String

/-- `path.resolve(cwd, p)`: append segments, collapsing `..` and `.`. -/
def resolveSeg (cwd p : Path) : Path :=
  p.foldl
    (fun acc s =>
      if s = ".." then acc.dropLast else if s = "." then acc else acc ++ [s])
    cwd

/-- The directory chain walked by `escalade`: the directory itself, its
parent, and so on up to (and including) the filesystem root — i.e. the
prefixes of `p` from longest to shortest. -/
def ancestors (p : Path) : List Path :=
  p.inits.reverse

/-- The pure filesystem oracle consulted by the resolver.  All queries
take resolved (absolute) paths, mirroring how Node resolves relative
paths against the working directory. -/
structure VendorFS where
  /-- `fs.pathExistsSync` -/
  pathExists : Path → Bool
  /-- `fs.lstatSync(·).isSymbolicLink()` -/
  symlink : Path → Bool
  /-- `fs.readdirSync` -/
  readdir : Path → List String
  /-- the keys of `dependencies` in `·/package.json`; `none` models
  `fs.readJsonSync` throwing because the manifest is missing -/
  manifest : Path → Option (List String)

/-- Length of the longest common prefix of two segment paths. -/
def commonPrefixLen : Path → Path → Nat
  | a :: as, b :: bs => if a = b then commonPrefixLen as bs + 1 else 0
  | _, _ => 0

/-- `path.relative(base, target)` over clean segment paths. -/
def jsRelative (base target : Path) : Path :=
  List.replicate (base.length - commonPrefixLen base target) ".." ++
    target.drop (commonPrefixLen base target)

/-- The nested-first, flat-fallback ancestor search (watch.js
1034-1039): ascend from `D`, and in each ancestor probe
`<ancestor>/node_modules/<x>`; the first hit wins. -/
def escaladeFind (fs : VendorFS) (cwd D : Path) (x : String) : Option Path :=
  (ancestors (resolveSeg cwd D)).findSome? fun dir =>
    if fs.pathExists (dir ++ ["node_modules", x]) then
      some (dir ++ ["node_modules", x])
    else none

/-- `ansi-colors`' `c.red`. -/
def ansiRed (s : String) : String := "\x1B[31m" ++ s ++ "\x1B[39m"

/-- Render an absolute segment path the POSIX way. -/
def absToString (p : Path) : String := "/" ++ String.intercalate "/" p

/-- The message of the error thrown at watch.js 1042. -/
def missingDepMessage (cwd D : Path) (x : String) : String :=
  "Unable to find node_module install for " ++ ansiRed x ++
    " which is listed as a dependency in file://" ++
    absToString (resolveSeg cwd D) ++ "/package.json"

/-- JavaScript `obj[key] = true` on an object used as an ordered set:
inserting an existing key is a no-op. -/
def insertOnce (l : List Path) (p : Path) : List Path :=
  if p ∈ l then l else l ++ [p]

/-- One listed dependency `x` of dep folder `D` (watch.js 1024-1051).
The state is `(prodDeps[topLevelFolderPath], nextNewlyAdded)`. -/
def depStep (fs : VendorFS) (cwd D : Path) (st : List Path × List Path)
    (x : String) : Except String (List Path × List Path) :=
  match escaladeFind fs cwd D x with
  | none => .error (missingDepMessage cwd D x)
  | some installPath =>
    let r := jsRelative cwd installPath
    if r ∈ st.1 then .ok st
    else .ok (st.1 ++ [r], insertOnce st.2 r)

/-- JavaScript `folder.startsWith('.')`: the first character is a dot. -/
def startsWithDot (s : String) : Bool := s.data.head? = some '.'

/-- One entry of the symlink re-scan of `D/node_modules` (watch.js
1055-1065): a non-dotfile symlink child is added to the prod set and —
with no membership guard — to the next worklist. -/
def symStep (fs : VendorFS) (cwd D : Path) (st : List Path × List Path)
    (folder : String) : List Path × List Path :=
  if startsWithDot folder then st
  else
    if fs.symlink (resolveSeg cwd (D ++ ["node_modules", folder])) then
      (insertOnce st.1 (D ++ ["node_modules", folder]),
        insertOnce st.2 (D ++ ["node_modules", folder]))
    else st

/-- Process one worklist dep folder `D`: read its manifest, fold its
dependencies, then re-scan `D/node_modules` for symlink children. -/
def processDepFolder (fs : VendorFS) (cwd : Path)
    (st : List Path × List Path) (D : Path) :
    Except String (List Path × List Path) := do
  match fs.manifest (resolveSeg cwd D) with
  | none =>
    .error ("ENOENT: no such file or directory " ++
      absToString (resolveSeg cwd D) ++ "/package.json")
  | some deps =>
    let st1 ← deps.foldlM (depStep fs cwd D) st
    if fs.pathExists (resolveSeg cwd (D ++ ["node_modules"])) then
      return (fs.readdir (resolveSeg cwd (D ++ ["node_modules"]))).foldl
        (symStep fs cwd D) st1
    else
      return st1

/-- One iteration of the `while (Object.keys(newlyAdded).length)` loop:
fold the worklist into the prod set, collecting the next worklist. -/
def processRound (fs : VendorFS) (cwd : Path) (prod : List Path)
    (wl : List Path) : Except String (List Path × List Path) :=
  wl.foldlM (processDepFolder fs cwd) (prod, [])

/-- The whole worklist loop, fuelled: `none` means the fuel ran out
with the worklist still non-empty. -/
def expandLoop (fs : VendorFS) (cwd : Path) :
    Nat → List Path → List Path → Option (Except String (List Path))
  | 0, _, _ => none
  | fuel + 1, prod, wl =>
    if wl = [] then some (.ok prod)
    else
      match processRound fs cwd prod wl with
      | .error e => some (.error e)
      | .ok (prod', next) => expandLoop fs cwd fuel prod' next

/-- The loop reaches a result (a completed prod set or a thrown error)
with enough fuel. -/
def ExpandTerminates (fs : VendorFS) (cwd : Path) (prod wl : List Path) :
    Prop :=
  ∃ fuel r, expandLoop fs cwd fuel prod wl = some r

theorem depStep_pre_ok (fs : VendorFS) (cwd D : Path) (pre : List String)
    (hpre : ∀ y ∈ pre, (escaladeFind fs cwd D y).isSome = true) :
    ∀ st, ∃ st', pre.foldlM (depStep fs cwd D) st = .ok st' := by
  induction pre with
  | nil => exact fun st => ⟨st, rfl⟩
  | cons y ys ih =>
    intro st
    have hy : (escaladeFind fs cwd D y).isSome = true :=
      hpre y (List.mem_cons_self y ys)
    have hys : ∀ y ∈ ys, (escaladeFind fs cwd D y).isSome = true :=
      fun z hz => hpre z (List.mem_cons_of_mem y hz)
    cases he : escaladeFind fs cwd D y with
    | none => rw [he] at hy; simp at hy
    | some installPath =>
      by_cases hr : jsRelative cwd installPath ∈ st.1
      · obtain ⟨st', hst'⟩ := ih hys st
        refine ⟨st', ?_⟩
        simp only [List.foldlM_cons, depStep, he, hr, if_true]
        simpa using hst'
      · obtain ⟨st', hst'⟩ := ih hys
          (st.1 ++ [jsRelative cwd installPath],
            insertOnce st.2 (jsRelative cwd installPath))
        refine ⟨st', ?_⟩
        simp only [List.foldlM_cons, depStep, he, hr, if_false]
        simpa using hst'

/-- C5: a missing dependency is fatal and names both parties.  If the
manifest of dep folder `D` lists `x` (after dependencies that all
resolve), and the nested-first flat-fallback ancestor search finds no
install of `x`, then processing `D` — and hence the whole fixpoint
expansion, when `D` is at the head of the worklist — fails with the
thrown error, whose message contains the dependency name `x` and the
resolved path of the folder `D`. -/
theorem addProdDeps_missing_dep_fatal (fs : VendorFS) (cwd D : Path)
    (pre post : List String) (x : String) (prod rest : List Path)
    (fuel : Nat)
    (hm : fs.manifest (resolveSeg cwd D) = some (pre ++ x :: post))
    (hpre : ∀ y ∈ pre, (escaladeFind fs cwd D y).isSome = true)
    (hx : escaladeFind fs cwd D x = none) :
    expandLoop fs cwd (fuel + 1) prod (D :: rest) =
      some (.error (missingDepMessage cwd D x)) ∧
    (∃ a b, (missingDepMessage cwd D x).data = a ++ x.data ++ b) ∧
    (∃ a b, (missingDepMessage cwd D x).data =
      a ++ (absToString (resolveSeg cwd D)).data ++ b) := by
  refine ⟨?_, ?_, ?_⟩
  · have hfold : ∀ st, (pre ++ x :: post).foldlM (depStep fs cwd D) st =
        (.error (missingDepMessage cwd D x) :
          Except String (List Path × List Path)) := by
      intro st
      obtain ⟨st', hst'⟩ := depStep_pre_ok fs cwd D pre hpre st
      rw [List.foldlM_append, hst']
      simp only [List.foldlM_cons, depStep, hx]
      rfl
    have hproc : processDepFolder fs cwd (prod, []) D =
        .error (missingDepMessage cwd D x) := by
      simp only [processDepFolder, hm, hfold]
      rfl
    have hround : processRound fs cwd prod (D :: rest) =
        .error (missingDepMessage cwd D x) := by
      simp only [processRound, List.foldlM_cons, hproc]
      rfl
    simp only [expandLoop, hround]
    rfl
  · refine ⟨"Unable to find node_module install for ".data ++ "\x1B[31m".data,
      "\x1B[39m".data ++ " which is listed as a dependency in file://".data ++
        (absToString (resolveSeg cwd D)).data ++ "/package.json".data, ?_⟩
    simp [missingDepMessage, ansiRed, String.data_append, List.append_assoc]
  · refine ⟨"Unable to find node_module install for ".data ++
        (ansiRed x).data ++ " which is listed as a dependency in file://".data,
      "/package.json".data, ?_⟩
    simp [missingDepMessage, String.data_append, List.append_assoc]

/-- A tiny filesystem with one dep folder `app` whose manifest lists a
dependency `x` that exists nowhere on disk. -/
def missingFS : VendorFS where
  pathExists := fun _ => false
  symlink := fun _ => false
  readdir := fun _ => []
  manifest := fun p => if p = ["app"] then some ["x"] else none

/-- Witness for `addProdDeps_missing_dep_fatal`: the expansion of
`missingFS` fails with the message naming `x` and `/app`. -/
theorem addProdDeps_missing_dep_fatal_witness :
    expandLoop missingFS [] 1 [] [["app"]] =
      some (.error (missingDepMessage [] ["app"] "x")) :=
  (addProdDeps_missing_dep_fatal missingFS [] ["app"] [] [] "x" [] [] 0
    (by rfl) (by simp) (by rfl)).1

/-! ### A symlink cycle makes the worklist loop diverge

The dependency branch carries a path into the next round only when it is
new (`if (!prodDeps[topLevelFolderPath][secondaryDepFolderPath])`), but
the symlink re-scan sets `nextNewlyAdded[folderPath] = true` with no such
guard.  With a vendor symlink pointing back up the tree (an `npm link`
cycle), the filesystem answers every deeper probe, the worklist paths
grow by `node_modules/a` each round, and the loop never empties.

`chainP k` is `app/node_modules/a/.../node_modules/a` with `k` vendor
hops; `cycFS` is the filesystem seen through such a cycle: every chain
folder exists, has an (empty-dependency) manifest, and its
`node_modules` holds the single symlinked folder `a`. -/

/-- `app` followed by `k` repetitions of `node_modules/a`. -/
def chainP : Nat → Path
  | 0 => ["app"]
  | k + 1 => chainP k ++ ["node_modules", "a"]

/-- Recogniser for reversed chain paths. -/
def isChainRev : List String → Bool
  | ["app"] => true
  | "a" :: "node_modules" :: rest => isChainRev rest
  | _ => false

/-- Is `p` some `chainP k`? -/
def isChain (p : Path) : Bool := isChainRev p.reverse

/-- Is `p` a chain folder's `node_modules` directory? -/
def isChainNM (p : Path) : Bool :=
  match p.reverse with
  | "node_modules" :: rest => isChainRev rest
  | _ => false

/-- Is `p` a symlinked chain entry (some `chainP (k+1)`)? -/
def isSymChain (p : Path) : Bool :=
  match p.reverse with
  | "a" :: "node_modules" :: rest => isChainRev rest
  | _ => false

/-- The filesystem as observed through an `npm link` cycle. -/
def cycFS : VendorFS where
  pathExists := isChainNM
  symlink := isSymChain
  readdir := fun p => if isChainNM p then ["a"] else []
  manifest := fun p => if isChain p then some [] else none

theorem resolveSeg_append_one (cwd p : Path) (s : String)
    (h1 : s ≠ "..") (h2 : s ≠ ".") :
    resolveSeg cwd (p ++ [s]) = resolveSeg cwd p ++ [s] := by
  unfold resolveSeg
  rw [List.foldl_append]
  simp [h1, h2]

theorem chainP_resolve (k : Nat) : resolveSeg [] (chainP k) = chainP k := by
  induction k with
  | zero => rfl
  | succ n ih =>
    show resolveSeg [] (chainP n ++ ["node_modules", "a"]) = _
    rw [show (["node_modules", "a"] : List String) =
        ["node_modules"] ++ ["a"] from rfl, ← List.append_assoc]
    rw [resolveSeg_append_one _ _ "a" (by decide) (by decide)]
    rw [resolveSeg_append_one _ _ "node_modules" (by decide) (by decide)]
    rw [ih]
    simp [chainP, List.append_assoc]

theorem chainP_isChain (k : Nat) : isChain (chainP k) = true := by
  induction k with
  | zero => rfl
  | succ n ih =>
    show isChain (chainP n ++ ["node_modules", "a"]) = true
    unfold isChain at ih ⊢
    rw [show (["node_modules", "a"] : List String) =
        ["node_modules"] ++ ["a"] from rfl]
    simp only [List.reverse_append, List.reverse_cons, List.reverse_nil,
      List.nil_append, List.singleton_append, List.cons_append]
    exact ih

theorem chainP_nm_isChainNM (k : Nat) :
    isChainNM (chainP k ++ ["node_modules"]) = true := by
  have := chainP_isChain k
  unfold isChain at this
  unfold isChainNM
  simp only [List.reverse_append, List.reverse_cons, List.reverse_nil,
    List.nil_append, List.singleton_append]
  exact this

theorem chainP_succ_isSymChain (k : Nat) :
    isSymChain (chainP (k + 1)) = true := by
  have := chainP_isChain k
  unfold isChain at this
  show isSymChain (chainP k ++ ["node_modules", "a"]) = true
  unfold isSymChain
  rw [show (["node_modules", "a"] : List String) =
      ["node_modules"] ++ ["a"] from rfl]
  simp only [List.reverse_append, List.reverse_cons, List.reverse_nil,
    List.nil_append, List.singleton_append, List.cons_append]
  exact this

theorem cyc_round (k : Nat) (prod : List Path) :
    processRound cycFS [] prod [chainP (k + 1)] =
      .ok (insertOnce prod (chainP (k + 2)), [chainP (k + 2)]) := by
  have hres : resolveSeg [] (chainP (k + 1)) = chainP (k + 1) :=
    chainP_resolve (k + 1)
  have hresNM : resolveSeg [] (chainP (k + 1) ++ ["node_modules"]) =
      chainP (k + 1) ++ ["node_modules"] := by
    rw [resolveSeg_append_one _ _ "node_modules" (by decide) (by decide), hres]
  have hresA : resolveSeg [] (chainP (k + 1) ++ ["node_modules", "a"]) =
      chainP (k + 2) := by
    rw [show (["node_modules", "a"] : List String) =
        ["node_modules"] ++ ["a"] from rfl, ← List.append_assoc]
    rw [resolveSeg_append_one _ _ "a" (by decide) (by decide), hresNM]
    simp [chainP, List.append_assoc]
  unfold processRound
  simp only [List.foldlM_cons, List.foldlM_nil]
  unfold processDepFolder
  rw [hres]
  simp only [cycFS, chainP_isChain (k + 1), if_true, List.foldlM_nil]
  rw [hresNM]
  simp only [chainP_nm_isChainNM (k + 1), if_true]
  simp only [List.foldl_cons, List.foldl_nil]
  unfold symStep
  rw [hresA]
  have hsym : isSymChain (chainP (k + 2)) = true := chainP_succ_isSymChain (k + 1)
  simp [hsym, insertOnce, show startsWithDot "a" = false from by decide,
    show chainP (k + 1) ++ ["node_modules", "a"] = chainP (k + 2) from rfl]
  rfl

theorem cyc_nonterm :
    ∀ fuel k prod, expandLoop cycFS [] fuel prod [chainP (k + 1)] = none := by
  intro fuel
  induction fuel with
  | zero => intro k prod; rfl
  | succ n ih =>
    intro k prod
    show (if ([chainP (k + 1)] : List Path) = [] then _
      else match processRound cycFS [] prod [chainP (k + 1)] with
        | .error e => some (.error e)
        | .ok (prod', next) => expandLoop cycFS [] n prod' next) = none
    rw [if_neg (by simp), cyc_round k prod]
    exact ih (k + 1) (insertOnce prod (chainP (k + 2)))

/-- C6 counterexample: the fixpoint expansion does **not** terminate on
every input.  On `cycFS` — a vendor tree with a symlinked folder that
resolves back up the tree — the worklist seeded with
`app/node_modules/a` never empties: the symlink re-scan re-adds a
longer chain path every round, unconditionally, and no amount of fuel
completes the loop. -/
theorem addProdDeps_symlink_cycle_diverges :
    ¬ ExpandTerminates cycFS [] [] [chainP 1] := by
  rintro ⟨fuel, r, hr⟩
  rw [show (chainP 1) = chainP (0 + 1) from rfl, cyc_nonterm fuel 0 []] at hr
  exact Option.noConfusion hr

/-! ### Without symlinks the fixpoint terminates

On a filesystem with no symlinked vendor folders, every path carried
into the next round comes from the guarded dependency branch: it is the
cwd-relative form of an existing install path, and it is new to the prod
set (and added to it at the same moment).  With finitely many existing
paths the prod set can only grow finitely often, so the loop empties its
worklist — whatever cycles the manifest dependency graph contains. -/

theorem escaladeFind_pathExists {fs : VendorFS} {cwd D : Path} {x : String}
    {ip : Path} (h : escaladeFind fs cwd D x = some ip) :
    fs.pathExists ip = true := by
  unfold escaladeFind at h
  generalize ancestors (resolveSeg cwd D) = l at h
  induction l with
  | nil => exact Option.noConfusion h
  | cons a l ih =>
    rw [List.findSome?_cons] at h
    by_cases hp : fs.pathExists (a ++ ["node_modules", x]) = true
    · simp only [hp, if_true] at h
      cases h
      exact hp
    · simp only [Bool.not_eq_true] at hp
      rw [hp] at h
      simp only [Bool.false_eq_true, if_false] at h
      exact ih h

/-- Invariant carried through one round: the prod set only grows from
`prod₀`, and everything in the next worklist is the relative form of an
existing path, was not in `prod₀`, and is now in the prod set. -/
def NextInv (fs : VendorFS) (cwd : Path) (prod₀ : List Path)
    (st : List Path × List Path) : Prop :=
  (∀ p ∈ prod₀, p ∈ st.1) ∧
  ∀ r ∈ st.2,
    (∃ ip, fs.pathExists ip = true ∧ r = jsRelative cwd ip) ∧
      r ∉ prod₀ ∧ r ∈ st.1

theorem depStep_inv {fs : VendorFS} {cwd D : Path}
    {st st' : List Path × List Path} {x : String}
    (p₀ : List Path)
    (h : depStep fs cwd D st x = .ok st')
    (hinv : NextInv fs cwd p₀ st) :
    NextInv fs cwd p₀ st' := by
  unfold depStep at h
  cases he : escaladeFind fs cwd D x with
  | none => rw [he] at h; exact Except.noConfusion h
  | some ip =>
    rw [he] at h
    simp only at h
    by_cases hr : jsRelative cwd ip ∈ st.1
    · rw [if_pos hr] at h
      cases h
      exact hinv
    · rw [if_neg hr] at h
      cases h
      obtain ⟨h1, h2⟩ := hinv
      constructor
      · exact fun p hp => List.mem_append_left _ (h1 p hp)
      · intro r hrm
        unfold insertOnce at hrm
        split at hrm
        · obtain ⟨ha, hb, hc⟩ := h2 r hrm
          exact ⟨ha, hb, List.mem_append_left _ hc⟩
        · rcases List.mem_append.mp hrm with hrm | hrm
          · obtain ⟨ha, hb, hc⟩ := h2 r hrm
            exact ⟨ha, hb, List.mem_append_left _ hc⟩
          · simp only [List.mem_singleton] at hrm
            subst hrm
            refine ⟨⟨ip, escaladeFind_pathExists he, rfl⟩, ?_, ?_⟩
            · exact fun hmem => hr (h1 _ hmem)
            · exact List.mem_append_right _ (List.mem_singleton.mpr rfl)

theorem depsFold_inv {fs : VendorFS} {cwd D : Path} (p₀ : List Path) :
    ∀ (deps : List String) (st st' : List Path × List Path),
      deps.foldlM (depStep fs cwd D) st = .ok st' →
      NextInv fs cwd p₀ st → NextInv fs cwd p₀ st' := by
  intro deps
  induction deps with
  | nil =>
    intro st st' h hinv
    cases h
    exact hinv
  | cons x xs ih =>
    intro st st' h hinv
    rw [List.foldlM_cons] at h
    cases hd : depStep fs cwd D st x with
    | error e =>
      rw [hd] at h
      exact Except.noConfusion h
    | ok stm =>
      rw [hd] at h
      exact ih stm st' h (depStep_inv p₀ hd hinv)

theorem symFold_id {fs : VendorFS} {cwd D : Path}
    (hs : ∀ p, fs.symlink p = false) :
    ∀ (l : List String) (st : List Path × List Path),
      l.foldl (symStep fs cwd D) st = st := by
  intro l
  induction l with
  | nil => intro st; rfl
  | cons f fsl ih =>
    intro st
    rw [List.foldl_cons]
    have : symStep fs cwd D st f = st := by
      unfold symStep
      rw [hs]
      simp
    rw [this, ih st]

theorem processDepFolder_inv {fs : VendorFS} {cwd : Path}
    (hs : ∀ p, fs.symlink p = false) (p₀ : List Path)
    {st st' : List Path × List Path} {D : Path}
    (h : processDepFolder fs cwd st D = .ok st')
    (hinv : NextInv fs cwd p₀ st) : NextInv fs cwd p₀ st' := by
  unfold processDepFolder at h
  cases hm : fs.manifest (resolveSeg cwd D) with
  | none =>
    rw [hm] at h
    exact Except.noConfusion h
  | some deps =>
    rw [hm] at h
    have h2 : (deps.foldlM (depStep fs cwd D) st >>= fun st1 =>
        if fs.pathExists (resolveSeg cwd (D ++ ["node_modules"])) = true then
          pure ((fs.readdir (resolveSeg cwd (D ++ ["node_modules"]))).foldl
            (symStep fs cwd D) st1)
        else pure st1) = .ok st' := h
    clear h
    cases hd : deps.foldlM (depStep fs cwd D) st with
    | error e =>
      rw [hd] at h2
      exact Except.noConfusion h2
    | ok st1 =>
      rw [hd] at h2
      have h3 : (if fs.pathExists (resolveSeg cwd (D ++ ["node_modules"])) =
            true then
          Except.ok ((fs.readdir (resolveSeg cwd (D ++ ["node_modules"]))).foldl
            (symStep fs cwd D) st1)
        else Except.ok st1) = Except.ok st' := h2
    
      clear h2
      split at h3
      · rw [symFold_id hs] at h3
        cases h3
        exact depsFold_inv p₀ deps st _ hd hinv
      · cases h3
        exact depsFold_inv p₀ deps st _ hd hinv

theorem processRound_inv {fs : VendorFS} {cwd : Path}
    (hs : ∀ p, fs.symlink p = false) (p₀ : List Path) :
    ∀ (wl : List Path) (st st' : List Path × List Path),
      wl.foldlM (processDepFolder fs cwd) st = .ok st' →
      NextInv fs cwd p₀ st → NextInv fs cwd p₀ st' := by
  intro wl
  induction wl with
  | nil =>
    intro st st' h hinv
    cases h
    exact hinv
  | cons D ds ih =>
    intro st st' h hinv
    rw [List.foldlM_cons] at h
    cases hd : processDepFolder fs cwd st D with
    | error e =>
      rw [hd] at h
      exact Except.noConfusion h
    | ok stm =>
      rw [hd] at h
      exact ih stm st' h (processDepFolder_inv hs p₀ hd hinv)

theorem expandLoop_succ (fs : VendorFS) (cwd : Path) (fuel : Nat)
    (prod wl : List Path) :
    expandLoop fs cwd (fuel + 1) prod wl =
      if wl = [] then some (.ok prod)
      else
        match processRound fs cwd prod wl with
        | .error e => some (.error e)
        | .ok (prod', next) => expandLoop fs cwd fuel prod' next := rfl

/-- C6 amended: termination without symlinks.  If no path is a symlink
and only finitely many paths exist on disk (`univ` lists them all),
then the worklist loop reaches a result — a completed prod set or a
thrown error — from every starting state, including manifests whose
dependency graphs contain cycles: the dependency branch is deduplicated
and only paths new to the prod set are carried into the next round, so
the prod set grows inside a finite universe. -/
theorem addProdDeps_terminates_without_symlinks (fs : VendorFS) (cwd : Path)
    (univ : Finset Path)
    (hs : ∀ p, fs.symlink p = false)
    (hu : ∀ p, fs.pathExists p = true → p ∈ univ) :
    ∀ prod wl, ExpandTerminates fs cwd prod wl := by
  suffices H : ∀ (n : Nat) (prod wl : List Path),
      ((univ.image (jsRelative cwd)) \ prod.toFinset).card ≤ n →
      ∃ fuel r, expandLoop fs cwd fuel prod wl = some r by
    intro prod wl
    exact H _ prod wl le_rfl
  intro n
  induction n with
  | zero =>
    intro prod wl hcard
    by_cases hwl : wl = []
    · subst hwl
      exact ⟨1, .ok prod, rfl⟩
    · cases hr : processRound fs cwd prod wl with
      | error e =>
        refine ⟨1, .error e, ?_⟩
        rw [show (1 : Nat) = 0 + 1 from rfl, expandLoop_succ, if_neg hwl, hr]
      | ok st' =>
        obtain ⟨prod', next⟩ := st'
        have hinv : NextInv fs cwd prod (prod', next) :=
          processRound_inv hs prod wl (prod, []) (prod', next) hr
            ⟨fun p hp => hp, by simp⟩
        cases hnext : next with
        | nil =>
          refine ⟨2, .ok prod', ?_⟩
          rw [show (2 : Nat) = 1 + 1 from rfl, expandLoop_succ, if_neg hwl, hr,
            hnext]
          rfl
        | cons r rs =>
          exfalso
          obtain ⟨⟨ip, hip, hrel⟩, hr0, _⟩ :=
            hinv.2 r (hnext ▸ List.mem_cons_self r rs)
          have hrin : r ∈ (univ.image (jsRelative cwd)) \ prod.toFinset := by
            rw [Finset.mem_sdiff, Finset.mem_image]
            exact ⟨⟨ip, hu ip hip, hrel.symm⟩, fun hc =>
              hr0 (List.mem_toFinset.mp hc)⟩
          have hpos :
              0 < ((univ.image (jsRelative cwd)) \ prod.toFinset).card :=
            Finset.card_pos.mpr ⟨r, hrin⟩
          omega
  | succ n ih =>
    intro prod wl hcard
    by_cases hwl : wl = []
    · subst hwl
      exact ⟨1, .ok prod, rfl⟩
    · cases hr : processRound fs cwd prod wl with
      | error e =>
        refine ⟨1, .error e, ?_⟩
        rw [show (1 : Nat) = 0 + 1 from rfl, expandLoop_succ, if_neg hwl, hr]
      | ok st' =>
        obtain ⟨prod', next⟩ := st'
        have hinv : NextInv fs cwd prod (prod', next) :=
          processRound_inv hs prod wl (prod, []) (prod', next) hr
            ⟨fun p hp => hp, by simp⟩
        cases hnext : next with
        | nil =>
          refine ⟨2, .ok prod', ?_⟩
          rw [show (2 : Nat) = 1 + 1 from rfl, expandLoop_succ, if_neg hwl, hr,
            hnext]
          rfl
        | cons r rs =>
          have hsub : (univ.image (jsRelative cwd)) \ prod'.toFinset ⊆
              (univ.image (jsRelative cwd)) \ prod.toFinset := by
            intro a ha
            rw [Finset.mem_sdiff] at ha ⊢
            refine ⟨ha.1, fun hc => ha.2 ?_⟩
            exact List.mem_toFinset.mpr (hinv.1 a (List.mem_toFinset.mp hc))
          obtain ⟨⟨ip, hip, hrel⟩, hr0, hr1⟩ :=
            hinv.2 r (hnext ▸ List.mem_cons_self r rs)
          have hrin : r ∈ (univ.image (jsRelative cwd)) \ prod.toFinset := by
            rw [Finset.mem_sdiff, Finset.mem_image]
            exact ⟨⟨ip, hu ip hip, hrel.symm⟩, fun hc =>
              hr0 (List.mem_toFinset.mp hc)⟩
          have hrout : r ∉ (univ.image (jsRelative cwd)) \ prod'.toFinset := by
            rw [Finset.mem_sdiff]
            exact fun hc => hc.2 (List.mem_toFinset.mpr hr1)
          have hlt : ((univ.image (jsRelative cwd)) \ prod'.toFinset).card <
              ((univ.image (jsRelative cwd)) \ prod.toFinset).card :=
            Finset.card_lt_card (Finset.ssubset_iff_of_subset hsub |>.mpr
              ⟨r, hrin, hrout⟩)
          obtain ⟨fuel, res, hres⟩ := ih prod' next (by omega)
          refine ⟨fuel + 1, res, ?_⟩
          rw [expandLoop_succ, if_neg hwl, hr]
          exact hres

/-- A small symlink-free filesystem: `app`'s manifest lists `x`,
installed flat at `app/node_modules/x` with an empty manifest. -/
def flatFS : VendorFS where
  pathExists := fun p => p = ["app", "node_modules", "x"]
  symlink := fun _ => false
  readdir := fun _ => []
  manifest := fun p =>
    if p = ["app"] then some ["x"]
    else if p = ["app", "node_modules", "x"] then some [] else none

/-- Witness for `addProdDeps_terminates_without_symlinks` on `flatFS`. -/
theorem addProdDeps_terminates_witness :
    ExpandTerminates flatFS [] [] [["app"]] :=
  addProdDeps_terminates_without_symlinks flatFS []
    {["app", "node_modules", "x"]}
    (fun _ => rfl)
    (fun p hp => by
      simp only [flatFS, decide_eq_true_eq] at hp
      simp [hp])
    [] [["app"]]

end Rebuild
